import Mathlib

/-!
Verification of the core analysis procedures of the EV_charging_forensics
repository: attack-start detection (scripts/analysis/task1_detect_attack_starts.py),
tolerance-window temporal alignment (scripts/analysis/task3_align_multilayer.py)
and time-lagged Pearson cross-correlation
(scripts/analysis/task5_time_lagged_correlation.py).

Modelling conventions:
* IEEE-754 floats of the Python code are idealised as exact rationals (`ℚ`).
* A per-second aligned sample that pandas/numpy represents as NaN (a null
  cell) is modelled as `none : Option ℚ`.
* scipy's Pearson `r` is `num / sqrt(dx * dy)` with
  `num = n*Σxy - Σx*Σy`, `dx = n*Σx² - (Σx)²`, `dy = n*Σy² - (Σy)²`.
  Since `sqrt` leaves `ℚ`, an entry stores `rsq = r² = num²/(dx*dy)` and
  `rsign = sign num` instead of `r` itself; `|r|` comparisons used by the
  code (`max(..., key=lambda x: abs(x['r']))`) agree with `rsq` comparisons
  because `x ↦ x²` is monotone on `|r|`.  `r` is NaN exactly when `dx = 0`
  or `dy = 0` (a constant input to `pearsonr`).
* The two-tailed p-value returned by `scipy.stats.pearsonr` in the
  non-degenerate branch is an opaque total function of `(n, r)`; the
  embedding is parameterised over it (`pval : ℕ → ℚ → ℤ → ℚ`, receiving
  the sample count, `r²` and the sign of `r`).
-/

/-- Arithmetic mean of a list of rationals (pandas `.mean()`; the empty
list, which pandas maps to NaN, is never fed to it by the code paths
modelled here — `ℚ`'s total division returns 0 there). -/
def listMean (l : List ℚ) : ℚ := l.sum / l.length

/-- pandas `.mean()` of a column, used for the benign baseline μ. -/
def sampleMean (l : List ℚ) : ℚ := l.sum / l.length

/-- pandas `.std()**2` of a column (ddof = 1, the sample variance); for a
list of length ≤ 1 pandas yields NaN, idealised here by total division
returning 0 (no modelled code path hits that case). -/
def sampleVar (l : List ℚ) : ℚ :=
  (l.map (fun x => (x - sampleMean l) ^ 2)).sum / (l.length - 1)

/-! ## Task 1: attack-start detection (task1_detect_attack_starts.py)

The host-layer loop (lines 137-181) slides over the time-sorted series
`s : List (ℚ × ℚ)` of (time, feature value) pairs.  For each sample time
`t` it takes the values in the window `[t, t+5)`; if their mean exceeds
the benign threshold it re-checks the mean over `[t, t+10)` (the
confirmation window starts at the same `window_start`).  The first time
passing both checks is returned with confidence `high`; otherwise the
first timestamp is returned with confidence `low`; an empty series
produces `None` (lines 182-184). -/

/-- Confidence tag attached to a detected attack start
(`'high'`, `'medium'`, `'low'` strings in the JSON output). -/
inductive Confidence where
  | high : Confidence
  | medium : Confidence
  | low : Confidence
deriving DecidableEq, Repr

/-- The (timestamp, confidence) part of one layer's detection record. -/
structure DetectResult where
  timestamp : ℚ
  confidence : Confidence
deriving DecidableEq, Repr

/-- Values of the series whose time lies in `[lo, hi)` — the numpy boolean
mask `(time_values >= lo) & (time_values < hi)` applied to
`feature_values`. -/
def winVals (s : List (ℚ × ℚ)) (lo hi : ℚ) : List ℚ :=
  (s.filter (fun p => lo ≤ p.1 ∧ p.1 < hi)).map Prod.snd

/-- The two-stage acceptance test of the host loop at window start `t`:
mean of `[t, t+5)` above threshold, and the confirmation window
`[t, t+10)` (same start, numpy mask `>= window_start & < window_start +
confirmation_duration`) nonempty with mean above threshold.  An empty
window's NaN mean compares false in Python, hence the emptiness guards. -/
def hostAccept (thr : ℚ) (s : List (ℚ × ℚ)) (t : ℚ) : Bool :=
  (!(winVals s t (t + 5)).isEmpty && decide (thr < listMean (winVals s t (t + 5))))
    && (!(winVals s t (t + 10)).isEmpty && decide (thr < listMean (winVals s t (t + 10))))

/-- Host-layer detection over the time-sorted series: first window start
passing `hostAccept` → confidence `high`; none → fallback to the first
timestamp, confidence `low`; empty series → `none` (the script stores
`None` for the layer). -/
def detectHost (thr : ℚ) (s : List (ℚ × ℚ)) : Option DetectResult :=
  match s with
  | [] => none
  | p :: rest =>
    match ((p :: rest).map Prod.fst).find? (fun t => hostAccept thr (p :: rest) t) with
    | some t => some ⟨t, Confidence.high⟩
    | none => some ⟨p.1, Confidence.low⟩

/-- Power-layer detection (lines 264-302): on the time-sorted series, the
first sample whose value exceeds the threshold is returned with
confidence `medium`; if none exceeds, the first timestamp with
confidence `low`; an empty series yields `none`. -/
def detectPower (thr : ℚ) (s : List (ℚ × ℚ)) : Option DetectResult :=
  match s with
  | [] => none
  | p :: rest =>
    match (p :: rest).find? (fun q => decide (thr < q.2)) with
    | some q => some ⟨q.1, Confidence.medium⟩
    | none => some ⟨p.1, Confidence.low⟩

/-- Acceptance test as the specification words it ("a longer confirmation
window immediately following it"): the 10-unit confirmation window is
`[t+5, t+15)`, placed after the 5-unit detection window, instead of the
code's `[t, t+10)`.  Used only to compare the spec's rule with the
code's. -/
def specHostAccept (thr : ℚ) (s : List (ℚ × ℚ)) (t : ℚ) : Bool :=
  (!(winVals s t (t + 5)).isEmpty && decide (thr < listMean (winVals s t (t + 5))))
    && (!(winVals s (t + 5) (t + 15)).isEmpty
        && decide (thr < listMean (winVals s (t + 5) (t + 15))))

/-! ## Task 3: tolerance-window alignment (task3_align_multilayer.py)

For each integer target second `t` in the configured range the script
collects the samples of one layer whose relative time lies in
`[t - τ, t + τ)` (masks `>= window_start` and `< window_end`, lines
67-79) and stores their per-column mean; an empty window leaves the cell
NaN in the resulting DataFrame.  One numeric column of one layer is
modelled as `List (ℚ × ℚ)` of (time_rel, value). -/

/-- Samples of the series inside the alignment window of target second
`t`: relative time in `[t - τ, t + τ)`. -/
def windowOf (τ : ℚ) (s : List (ℚ × ℚ)) (t : ℚ) : List (ℚ × ℚ) :=
  s.filter (fun p => t - τ ≤ p.1 ∧ p.1 < t + τ)

/-- One aligned cell: the mean of the window samples, or `none` (NaN)
when the window is empty. -/
def alignedCell (τ : ℚ) (s : List (ℚ × ℚ)) (t : ℚ) : Option ℚ :=
  let w := windowOf τ s t
  if w.isEmpty then none else some (listMean (w.map Prod.snd))

/-- The aligned timeline of one column over target seconds `0..T`
(`TIME_RANGE = range(0, T+1)`, with `T = 60` in the script). -/
def alignTimeline (τ : ℚ) (s : List (ℚ × ℚ)) (T : ℕ) : List (ℕ × Option ℚ) :=
  (List.range (T + 1)).map (fun t => (t, alignedCell τ s (t : ℚ)))

/-- Number of non-null cells of an aligned timeline. -/
def nonNullCount (tl : List (ℕ × Option ℚ)) : ℕ :=
  tl.countP (fun c => c.2.isSome)

/-- Fraction of non-null cells (1 − the script's missing rate / 100). -/
def nonNullFrac (tl : List (ℕ × Option ℚ)) : ℚ :=
  (nonNullCount tl : ℚ) / tl.length

/-! ## Task 5: time-lagged correlation (task5_time_lagged_correlation.py) -/

/-- The shift of the two aligned intensity series at integer `lag`
(lines 86-97): negative lag drops the last `|lag|` points of the first
series and the first `|lag|` of the second; positive lag symmetrically;
zero leaves both. -/
def shiftPair (a b : List (Option ℚ)) (lag : ℤ) : List (Option ℚ) × List (Option ℚ) :=
  if lag < 0 then
    (a.take (a.length - lag.natAbs), b.drop lag.natAbs)
  else if 0 < lag then
    (a.drop lag.toNat, b.take (b.length - lag.toNat))
  else
    (a, b)

/-- Position-wise valid pairs after shifting: the numpy mask
`~(isnan a' | isnan b')` applied to both shifted series (lines 100-114). -/
def validPairs (a b : List (Option ℚ)) (lag : ℤ) : List (ℚ × ℚ) :=
  let sh := shiftPair a b lag
  (sh.1.zip sh.2).filterMap (fun p =>
    match p with
    | (some x, some y) => some (x, y)
    | _ => none)

/-- `Σ xᵢ·yᵢ` over two (equal-length) lists. -/
def listDot (xs ys : List ℚ) : ℚ :=
  ((xs.zip ys).map (fun p => p.1 * p.2)).sum

/-- Numerator of Pearson's r scaled by `n`: `n·Σxy − Σx·Σy`. -/
def pNum (xs ys : List ℚ) : ℚ :=
  (xs.length : ℚ) * listDot xs ys - xs.sum * ys.sum

/-- `n·Σx² − (Σx)²`, the square of the denominator factor for `xs`. -/
def pDen (xs : List ℚ) : ℚ := pNum xs xs

/-- One row of the per-lag correlation table
(`{lag, r, p_value, significant, n_samples}`), with `r` stored as
`(rsq, rsign)` — see the header comment. -/
structure LagEntry where
  lag : ℤ
  rsq : ℚ
  rsign : ℤ
  p : ℚ
  significant : Bool
  nSamples : ℕ
deriving DecidableEq, Repr

/-- The entry recorded for one lag (lines 85-125): fewer than 3 valid
pairs → the void record (r = 0, p = 1, not significant, actual count
kept); a constant shifted series (`dx = 0` or `dy = 0`, scipy returning
NaN for both r and p) → the same void record with the count; otherwise
the Pearson values with `significant := p < 0.05`. -/
def lagEntry (pval : ℕ → ℚ → ℤ → ℚ) (a b : List (Option ℚ)) (lag : ℤ) : LagEntry :=
  let pairs := validPairs a b lag
  let n := pairs.length
  if n < 3 then ⟨lag, 0, 0, 1, false, n⟩
  else
    let xs := pairs.map Prod.fst
    let ys := pairs.map Prod.snd
    let dx := pDen xs
    let dy := pDen ys
    if dx = 0 ∨ dy = 0 then ⟨lag, 0, 0, 1, false, n⟩
    else
      let num := pNum xs ys
      let rsq := num ^ 2 / (dx * dy)
      let sgn : ℤ := if 0 < num then 1 else if num < 0 then -1 else 0
      let p := pval n rsq sgn
      ⟨lag, rsq, sgn, p, decide (p < 1 / 20), n⟩

/-- The full per-lag table for `lag ∈ [-L, L]` in scan order
(`for lag in range(LAG_MIN, LAG_MAX + 1)` with `L = 10`). -/
def lagTable (pval : ℕ → ℚ → ℤ → ℚ) (a b : List (Option ℚ)) (L : ℕ) : List LagEntry :=
  (List.range (2 * L + 1)).map (fun (i : ℕ) => lagEntry pval a b ((i : ℤ) - (L : ℤ)))

/-- Python's `max(..., key=f)` accumulator: replaces the current best only
on a strictly larger key, so the first maximal element wins ties. -/
def pyMax1 (f : LagEntry → ℚ) (best : LagEntry) : List LagEntry → LagEntry
  | [] => best
  | y :: ys => pyMax1 f (if f best < f y then y else best) ys

/-- Python's `max(list, key=f)` (`none` on the empty list, where Python
raises). -/
def pyMaxBy (f : LagEntry → ℚ) : List LagEntry → Option LagEntry
  | [] => none
  | x :: xs => some (pyMax1 f x xs)

/-- The selected optimal entry:
`max(corr_table, key=lambda x: abs(x['r']))` (line 128); comparing
`|r|` is comparing `rsq`. -/
def optimalEntry (pval : ℕ → ℚ → ℤ → ℚ) (a b : List (Option ℚ)) (L : ℕ) :
    Option LagEntry :=
  pyMaxBy (fun e => e.rsq) (lagTable pval a b L)

/-- `B` as `A` delayed by exactly `k` seconds on the same per-second
index: cell `i` of the result is cell `i - k` of `a` (the first `k`
cells are null), truncated to `a`'s length. -/
def shiftSeries (k : ℕ) (a : List (Option ℚ)) : List (Option ℚ) :=
  (List.replicate k none ++ a).take a.length

/-- A concrete stand-in for scipy's p-value function, used to instantiate
the `pval` parameter in closed statements (its value never matters
there). -/
def constP : ℕ → ℚ → ℤ → ℚ := fun _ _ _ => 1

/-! ## Helper lemmas -/

/-- `pyMax1` keeps the running best unless a strictly larger key appears:
either no element beats `best`, or the result is the first element whose
key exceeds `best` and every earlier element's key, with nothing after it
strictly larger. -/
theorem pyMax1_split (f : LagEntry → ℚ) :
    ∀ (ys : List LagEntry) (best : LagEntry),
      (pyMax1 f best ys = best ∧ ∀ y ∈ ys, f y ≤ f best) ∨
      (∃ l1 m l2, ys = l1 ++ m :: l2 ∧ pyMax1 f best ys = m ∧ f best < f m ∧
        (∀ x ∈ l1, f x < f m) ∧ (∀ x ∈ l2, f x ≤ f m)) := by
  intro ys
  induction ys with
  | nil => intro best; left; exact ⟨rfl, by simp⟩
  | cons y ys ih =>
    intro best
    by_cases hb : f best < f y
    · rcases ih y with ⟨h1, h2⟩ | ⟨l1, m, l2, he, hr, hlt, hl1, hl2⟩
      · right
        refine ⟨[], y, ys, rfl, ?_, hb, by simp, h2⟩
        simpa [pyMax1, hb] using h1
      · right
        refine ⟨y :: l1, m, l2, by rw [he, List.cons_append], ?_, lt_trans hb hlt, ?_, hl2⟩
        · simpa [pyMax1, hb] using hr
        · intro x hx
          rcases List.mem_cons.1 hx with rfl | hx
          · exact hlt
          · exact hl1 x hx
    · rcases ih best with ⟨h1, h2⟩ | ⟨l1, m, l2, he, hr, hlt, hl1, hl2⟩
      · left
        constructor
        · simpa [pyMax1, hb] using h1
        · intro x hx
          rcases List.mem_cons.1 hx with rfl | hx
          · exact le_of_not_lt hb
          · exact h2 x hx
      · right
        refine ⟨y :: l1, m, l2, by rw [he, List.cons_append], ?_, hlt, ?_, hl2⟩
        · simpa [pyMax1, hb] using hr
        · intro x hx
          rcases List.mem_cons.1 hx with rfl | hx
          · exact lt_of_le_of_lt (le_of_not_lt hb) hlt
          · exact hl1 x hx

/-- Python `max` semantics: on a nonempty list the result is the first
element attaining the maximal key (everything before it is strictly
smaller, everything after at most equal). -/
theorem pyMaxBy_split (f : LagEntry → ℚ) (x : LagEntry) (xs : List LagEntry) :
    ∃ m l1 l2, pyMaxBy f (x :: xs) = some m ∧ x :: xs = l1 ++ m :: l2 ∧
      (∀ y ∈ l1, f y < f m) ∧ (∀ y ∈ l2, f y ≤ f m) := by
  rcases pyMax1_split f xs x with ⟨h1, h2⟩ | ⟨l1, m, l2, he, hr, hlt, hl1, hl2⟩
  · exact ⟨x, [], xs, by simp [pyMaxBy, h1], rfl, by simp, h2⟩
  · refine ⟨m, x :: l1, l2, by simp [pyMaxBy, hr], by rw [he, List.cons_append], ?_, hl2⟩
    intro y hy
    rcases List.mem_cons.1 hy with rfl | hy
    · exact hlt
    · exact hl1 y hy

/-- The selected element of `pyMaxBy` belongs to the list and its key
dominates every element's key. -/
theorem pyMaxBy_max (f : LagEntry → ℚ) (l : List LagEntry) (m : LagEntry)
    (h : pyMaxBy f l = some m) : m ∈ l ∧ ∀ y ∈ l, f y ≤ f m := by
  cases l with
  | nil => simp [pyMaxBy] at h
  | cons x xs =>
    obtain ⟨m', l1, l2, hm', he, hl1, hl2⟩ := pyMaxBy_split f x xs
    rw [h] at hm'
    obtain rfl : m = m' := by simpa using hm'
    constructor
    · rw [he]; exact List.mem_append.2 (Or.inr (List.mem_cons_self _ _))
    · intro y hy
      rw [he] at hy
      rcases List.mem_append.1 hy with hy | hy
      · exact le_of_lt (hl1 y hy)
      · rcases List.mem_cons.1 hy with rfl | hy
        · exact le_refl _
        · exact hl2 y hy

/-- A list sum as a `Finset.range` sum of `getD`. -/
theorem list_sum_eq_range (l : List ℚ) :
    l.sum = ∑ i in Finset.range l.length, l.getD i 0 := by
  induction l with
  | nil => simp
  | cons a t ih =>
    rw [List.sum_cons, List.length_cons, Finset.sum_range_succ']
    simp [ih]
    ring

/-- `listDot` as a `Finset.range` sum of `getD` products. -/
theorem listDot_eq_range (xs ys : List ℚ) (h : xs.length = ys.length) :
    listDot xs ys = ∑ i in Finset.range xs.length, xs.getD i 0 * ys.getD i 0 := by
  induction xs generalizing ys with
  | nil => simp [listDot]
  | cons a t ih =>
    cases ys with
    | nil => simp at h
    | cons b u =>
      have h' : t.length = u.length := by simpa using h
      rw [List.length_cons, Finset.sum_range_succ']
      have : listDot (a :: t) (b :: u) = a * b + listDot t u := by
        simp [listDot]
      rw [this, ih u h']
      simp
      ring

/-- Cauchy–Schwarz in the form needed for Pearson's statistic, over
`Finset.range`. -/
theorem range_pearson_cs (n : ℕ) (X Y : ℕ → ℚ) :
    ((n : ℚ) * (∑ i in Finset.range n, X i * Y i) -
        (∑ i in Finset.range n, X i) * (∑ i in Finset.range n, Y i)) ^ 2 * ((n : ℚ) * (n : ℚ))
      ≤ ((n : ℚ) * (∑ i in Finset.range n, X i * X i) - (∑ i in Finset.range n, X i) ^ 2) *
          ((n : ℚ) * (∑ i in Finset.range n, Y i * Y i) - (∑ i in Finset.range n, Y i) ^ 2) *
          ((n : ℚ) * (n : ℚ)) := by
  set SX := ∑ i in Finset.range n, X i with hSX
  set SY := ∑ i in Finset.range n, Y i with hSY
  have cs := Finset.sum_mul_sq_le_sq_mul_sq (Finset.range n)
    (fun i => (n : ℚ) * X i - SX) (fun i => (n : ℚ) * Y i - SY)
  have huv : (∑ i in Finset.range n, ((n : ℚ) * X i - SX) * ((n : ℚ) * Y i - SY))
      = (n : ℚ) * ((n : ℚ) * (∑ i in Finset.range n, X i * Y i) - SX * SY) := by
    have : ∀ i ∈ Finset.range n, ((n : ℚ) * X i - SX) * ((n : ℚ) * Y i - SY)
        = (n : ℚ) ^ 2 * (X i * Y i) - (n : ℚ) * SY * X i - (n : ℚ) * SX * Y i + SX * SY := by
      intro i _; ring
    rw [Finset.sum_congr rfl this]
    simp only [Finset.sum_add_distrib, Finset.sum_sub_distrib, ← Finset.mul_sum,
      Finset.sum_const, Finset.card_range, nsmul_eq_mul, ← hSX, ← hSY]
    ring
  have hu2 : (∑ i in Finset.range n, ((n : ℚ) * X i - SX) ^ 2)
      = (n : ℚ) * ((n : ℚ) * (∑ i in Finset.range n, X i * X i) - SX ^ 2) := by
    have : ∀ i ∈ Finset.range n, ((n : ℚ) * X i - SX) ^ 2
        = (n : ℚ) ^ 2 * (X i * X i) - 2 * (n : ℚ) * SX * X i + SX ^ 2 := by
      intro i _; ring
    rw [Finset.sum_congr rfl this]
    simp only [Finset.sum_add_distrib, Finset.sum_sub_distrib, ← Finset.mul_sum,
      Finset.sum_const, Finset.card_range, nsmul_eq_mul, ← hSX]
    ring
  have hv2 : (∑ i in Finset.range n, ((n : ℚ) * Y i - SY) ^ 2)
      = (n : ℚ) * ((n : ℚ) * (∑ i in Finset.range n, Y i * Y i) - SY ^ 2) := by
    have : ∀ i ∈ Finset.range n, ((n : ℚ) * Y i - SY) ^ 2
        = (n : ℚ) ^ 2 * (Y i * Y i) - 2 * (n : ℚ) * SY * Y i + SY ^ 2 := by
      intro i _; ring
    rw [Finset.sum_congr rfl this]
    simp only [Finset.sum_add_distrib, Finset.sum_sub_distrib, ← Finset.mul_sum,
      Finset.sum_const, Finset.card_range, nsmul_eq_mul, ← hSY]
    ring
  have cs2 : (∑ i in Finset.range n, ((n : ℚ) * X i - SX) * ((n : ℚ) * Y i - SY)) ^ 2
      ≤ (∑ i in Finset.range n, ((n : ℚ) * X i - SX) ^ 2) *
        (∑ i in Finset.range n, ((n : ℚ) * Y i - SY) ^ 2) := by
    simpa [pow_two] using cs
  rw [huv, hu2, hv2] at cs2
  calc ((n : ℚ) * (∑ i in Finset.range n, X i * Y i) - SX * SY) ^ 2 * ((n : ℚ) * (n : ℚ))
      = ((n : ℚ) * ((n : ℚ) * (∑ i in Finset.range n, X i * Y i) - SX * SY)) ^ 2 := by ring
    _ ≤ ((n : ℚ) * ((n : ℚ) * (∑ i in Finset.range n, X i * X i) - SX ^ 2)) *
        ((n : ℚ) * ((n : ℚ) * (∑ i in Finset.range n, Y i * Y i) - SY ^ 2)) := cs2
    _ = ((n : ℚ) * (∑ i in Finset.range n, X i * X i) - SX ^ 2) *
        ((n : ℚ) * (∑ i in Finset.range n, Y i * Y i) - SY ^ 2) * ((n : ℚ) * (n : ℚ)) := by ring

/-- The squared Pearson numerator is bounded by the product of the two
denominator factors. -/
theorem pNum_sq_le_pDen (xs ys : List ℚ) (h : xs.length = ys.length) :
    pNum xs ys ^ 2 ≤ pDen xs * pDen ys := by
  rcases Nat.eq_zero_or_pos xs.length with hn | hn
  · have hx : xs = [] := List.length_eq_zero.1 hn
    have hy : ys = [] := List.length_eq_zero.1 (h ▸ hn)
    subst hx; subst hy
    simp [pNum, pDen, listDot]
  · have key := range_pearson_cs xs.length (fun i => xs.getD i 0) (fun i => ys.getD i 0)
    have hx2 : listDot xs xs = ∑ i in Finset.range xs.length, xs.getD i 0 * xs.getD i 0 :=
      listDot_eq_range xs xs rfl
    have hy2 : listDot ys ys = ∑ i in Finset.range ys.length, ys.getD i 0 * ys.getD i 0 :=
      listDot_eq_range ys ys rfl
    have hxy : listDot xs ys = ∑ i in Finset.range xs.length, xs.getD i 0 * ys.getD i 0 :=
      listDot_eq_range xs ys h
    have hnum : pNum xs ys = (xs.length : ℚ) * (∑ i in Finset.range xs.length, xs.getD i 0 * ys.getD i 0)
        - (∑ i in Finset.range xs.length, xs.getD i 0) * (∑ i in Finset.range xs.length, ys.getD i 0) := by
      rw [pNum, hxy, list_sum_eq_range xs, list_sum_eq_range ys, h]
    have hdx : pDen xs = (xs.length : ℚ) * (∑ i in Finset.range xs.length, xs.getD i 0 * xs.getD i 0)
        - (∑ i in Finset.range xs.length, xs.getD i 0) ^ 2 := by
      rw [pDen, pNum, hx2, list_sum_eq_range xs]; ring
    have hdy : pDen ys = (ys.length : ℚ) * (∑ i in Finset.range ys.length, ys.getD i 0 * ys.getD i 0)
        - (∑ i in Finset.range ys.length, ys.getD i 0) ^ 2 := by
      rw [pDen, pNum, hy2, list_sum_eq_range ys]; ring
    rw [← h] at hdy
    have hpos : (0 : ℚ) < (xs.length : ℚ) * (xs.length : ℚ) := by
      have : (0 : ℚ) < (xs.length : ℚ) := by exact_mod_cast hn
      exact mul_pos this this
    have key2 : pNum xs ys ^ 2 * ((xs.length : ℚ) * (xs.length : ℚ))
        ≤ pDen xs * pDen ys * ((xs.length : ℚ) * (xs.length : ℚ)) := by
      rw [hnum, hdx, hdy]; exact key
    exact (mul_le_mul_right hpos).1 key2

/-- `pDen` is nonnegative (Cauchy–Schwarz against the constant 1). -/
theorem pDen_nonneg (xs : List ℚ) : 0 ≤ pDen xs := by
  rcases Nat.eq_zero_or_pos xs.length with hn | hn
  · have hx : xs = [] := List.length_eq_zero.1 hn
    subst hx; simp [pDen, pNum, listDot]
  · have cs := Finset.sum_mul_sq_le_sq_mul_sq (Finset.range xs.length)
      (fun i => xs.getD i 0) (fun _ => (1 : ℚ))
    have hx2 : listDot xs xs = ∑ i in Finset.range xs.length, xs.getD i 0 * xs.getD i 0 :=
      listDot_eq_range xs xs rfl
    have : (∑ i in Finset.range xs.length, xs.getD i 0) ^ 2
        ≤ (∑ i in Finset.range xs.length, xs.getD i 0 * xs.getD i 0) * (xs.length : ℚ) := by
      simpa [pow_two] using cs
    have h2 : pDen xs = (xs.length : ℚ) * (∑ i in Finset.range xs.length, xs.getD i 0 * xs.getD i 0)
        - (∑ i in Finset.range xs.length, xs.getD i 0) ^ 2 := by
      rw [pDen, pNum, hx2, list_sum_eq_range xs]; ring
    rw [h2]
    linarith [this]

/-- `lagEntry` with its local bindings expanded, for case analysis. -/
theorem lagEntry_eq (pval : ℕ → ℚ → ℤ → ℚ) (a b : List (Option ℚ)) (lag : ℤ) :
    lagEntry pval a b lag =
      if (validPairs a b lag).length < 3 then
        ⟨lag, 0, 0, 1, false, (validPairs a b lag).length⟩
      else if pDen ((validPairs a b lag).map Prod.fst) = 0 ∨
          pDen ((validPairs a b lag).map Prod.snd) = 0 then
        ⟨lag, 0, 0, 1, false, (validPairs a b lag).length⟩
      else
        ⟨lag,
          pNum ((validPairs a b lag).map Prod.fst) ((validPairs a b lag).map Prod.snd) ^ 2 /
            (pDen ((validPairs a b lag).map Prod.fst) * pDen ((validPairs a b lag).map Prod.snd)),
          if 0 < pNum ((validPairs a b lag).map Prod.fst) ((validPairs a b lag).map Prod.snd)
            then 1
            else if pNum ((validPairs a b lag).map Prod.fst) ((validPairs a b lag).map Prod.snd) < 0
              then -1 else 0,
          pval (validPairs a b lag).length
            (pNum ((validPairs a b lag).map Prod.fst) ((validPairs a b lag).map Prod.snd) ^ 2 /
              (pDen ((validPairs a b lag).map Prod.fst) * pDen ((validPairs a b lag).map Prod.snd)))
            (if 0 < pNum ((validPairs a b lag).map Prod.fst) ((validPairs a b lag).map Prod.snd)
              then 1
              else if pNum ((validPairs a b lag).map Prod.fst) ((validPairs a b lag).map Prod.snd) < 0
                then -1 else 0),
          decide (pval (validPairs a b lag).length
            (pNum ((validPairs a b lag).map Prod.fst) ((validPairs a b lag).map Prod.snd) ^ 2 /
              (pDen ((validPairs a b lag).map Prod.fst) * pDen ((validPairs a b lag).map Prod.snd)))
            (if 0 < pNum ((validPairs a b lag).map Prod.fst) ((validPairs a b lag).map Prod.snd)
              then 1
              else if pNum ((validPairs a b lag).map Prod.fst) ((validPairs a b lag).map Prod.snd) < 0
                then -1 else 0) < 1 / 20),
          (validPairs a b lag).length⟩ := rfl

/-- Every recorded entry carries the lag it was computed for. -/
theorem lagEntry_lag (pval : ℕ → ℚ → ℤ → ℚ) (a b : List (Option ℚ)) (lag : ℤ) :
    (lagEntry pval a b lag).lag = lag := by
  rw [lagEntry_eq]
  split
  · rfl
  · split
    · rfl
    · rfl

/-- The squared correlation of every recorded entry is at most 1. -/
theorem lagEntry_rsq_le_one (pval : ℕ → ℚ → ℤ → ℚ) (a b : List (Option ℚ)) (lag : ℤ) :
    (lagEntry pval a b lag).rsq ≤ 1 := by
  rw [lagEntry_eq]
  split
  · norm_num
  · split
    · norm_num
    · rename_i hn hd
      simp only
      set xs := (validPairs a b lag).map Prod.fst with hxs
      set ys := (validPairs a b lag).map Prod.snd with hys
      have hlen : xs.length = ys.length := by simp [hxs, hys]
      have hle := pNum_sq_le_pDen xs ys hlen
      have hdx : pDen xs ≠ 0 := fun hc => hd (Or.inl hc)
      have hdy : pDen ys ≠ 0 := fun hc => hd (Or.inr hc)
      have hdxp : 0 < pDen xs := lt_of_le_of_ne (pDen_nonneg xs) (Ne.symm hdx)
      have hdyp : 0 < pDen ys := lt_of_le_of_ne (pDen_nonneg ys) (Ne.symm hdy)
      exact div_le_one_of_le₀ hle (le_of_lt (mul_pos hdxp hdyp))

/-- Every lag in `[-L, L]` contributes its entry to the table. -/
theorem lagEntry_mem_lagTable (pval : ℕ → ℚ → ℤ → ℚ) (a b : List (Option ℚ))
    {L : ℕ} {lag : ℤ} (h1 : -(L : ℤ) ≤ lag) (h2 : lag ≤ L) :
    lagEntry pval a b lag ∈ lagTable pval a b L := by
  unfold lagTable
  have hi : (lag + L).toNat ∈ List.range (2 * L + 1) := List.mem_range.2 (by omega)
  have he : lagEntry pval a b ((((lag + L).toNat : ℕ) : ℤ) - L) = lagEntry pval a b lag := by
    congr 1
    omega
  exact he ▸ List.mem_map_of_mem (fun (i : ℕ) => lagEntry pval a b ((i : ℤ) - L)) hi

/-- Conversely, every table element is the entry of its own lag. -/
theorem mem_lagTable_eq (pval : ℕ → ℚ → ℤ → ℚ) (a b : List (Option ℚ)) (L : ℕ)
    (e : LagEntry) (he : e ∈ lagTable pval a b L) : e = lagEntry pval a b e.lag := by
  obtain ⟨i, _, rfl⟩ := List.mem_map.1 he
  rw [lagEntry_lag]

/-- `pyMaxBy` returns `none` only on the empty list. -/
theorem pyMaxBy_eq_none (f : LagEntry → ℚ) (l : List LagEntry)
    (h : pyMaxBy f l = none) : l = [] := by
  cases l with
  | nil => rfl
  | cons x xs => simp [pyMaxBy] at h

/-- The lag table always has `2L + 1` entries, hence is nonempty. -/
theorem lagTable_ne_nil (pval : ℕ → ℚ → ℤ → ℚ) (a b : List (Option ℚ)) (L : ℕ) :
    lagTable pval a b L ≠ [] := by
  intro h
  have := congrArg List.length h
  simp [lagTable] at this

/-- Shifting the pair (A, A delayed by k) at lag `-k` overlays each point
of `A`'s truncation onto itself. -/
theorem shiftPair_shiftSeries (a : List (Option ℚ)) (k : ℕ) :
    shiftPair a (shiftSeries k a) (-(k : ℤ))
      = (a.take (a.length - k), a.take (a.length - k)) := by
  rcases Nat.eq_zero_or_pos k with hk | hk
  · subst hk
    have h0 : ¬ ((-(0 : ℤ)) < 0) := by norm_num
    simp [shiftPair, shiftSeries, List.take_length]
  · have hneg : (-(k : ℤ)) < 0 := by omega
    have habs : (-(k : ℤ)).natAbs = k := by omega
    rw [shiftPair, if_pos hneg, habs]
    have hdrop : (shiftSeries k a).drop k = a.take (a.length - k) := by
      rw [shiftSeries, List.drop_take]
      have hrep : (List.replicate k (none : Option ℚ) ++ a).drop k = a := by
        have hlen := List.drop_left (List.replicate k (none : Option ℚ)) a
        rwa [List.length_replicate] at hlen
      rw [hrep]
    rw [hdrop]

/-- Zipping a list of optional values with itself and keeping the
both-valid positions yields the diagonal pairs of its valid values. -/
theorem zip_self_validPairs (c : List (Option ℚ)) :
    ((c.zip c).filterMap (fun p =>
        match p with
        | (some x, some y) => some ((x : ℚ), (y : ℚ))
        | _ => none))
      = (c.filterMap id).map (fun v => (v, v)) := by
  induction c with
  | nil => rfl
  | cons o t ih =>
    cases o with
    | none => simpa [List.zip_cons_cons, List.filterMap_cons] using ih
    | some v => simpa [List.zip_cons_cons, List.filterMap_cons] using ih

/-- The valid pairs of (A, A delayed by k) at lag `-k` are the diagonal
pairs of the valid values of `A`'s truncation. -/
theorem validPairs_shiftSeries (a : List (Option ℚ)) (k : ℕ) :
    validPairs a (shiftSeries k a) (-(k : ℤ))
      = ((a.take (a.length - k)).filterMap id).map (fun v => (v, v)) := by
  rw [validPairs, shiftPair_shiftSeries]
  exact zip_self_validPairs (a.take (a.length - k))

/-! ## Claim C1 -/

set_option maxRecDepth 400000 in
/-- C1 (as stated) is false: with two all-void series every lag of the
produced table carries the same `|r| = 0`, the selected optimal entry is
the first one scanned (lag −10), yet the tied entry at lag 0 has the
strictly smaller `|lag|` the claim requires. -/
theorem C1_counterexample :
    optimalEntry constP [some 1, some 1] [some 1, some 1] 10
        = some ⟨-10, 0, 0, 1, false, 0⟩ ∧
      lagEntry constP [some 1, some 1] [some 1, some 1] 0 = ⟨0, 0, 0, 1, false, 2⟩ ∧
      lagEntry constP [some 1, some 1] [some 1, some 1] 0
          ∈ lagTable constP [some 1, some 1] [some 1, some 1] 10 ∧
      (0 : ℤ).natAbs < (-10 : ℤ).natAbs := by
  with_unfolding_all decide

/-- C1 (amended): the selected optimal entry maximises `|r|` (stored as
`rsq = r²`), and ties are broken by scan order — the first lag reached
when scanning from `-L` to `+L` — not by smallest `|lag|`: everything
before the selected entry in the table is strictly smaller, everything
after is at most equal. -/
theorem C1_optimal_first_max_absr (pval : ℕ → ℚ → ℤ → ℚ) (a b : List (Option ℚ)) (L : ℕ) :
    ∃ e l1 l2, optimalEntry pval a b L = some e ∧
      lagTable pval a b L = l1 ++ e :: l2 ∧
      (∀ x ∈ l1, x.rsq < e.rsq) ∧ (∀ x ∈ l2, x.rsq ≤ e.rsq) := by
  obtain ⟨x, xs, hx⟩ := List.exists_cons_of_ne_nil (lagTable_ne_nil pval a b L)
  obtain ⟨m, l1, l2, hm, he, hl1, hl2⟩ := pyMaxBy_split (fun e => e.rsq) x xs
  refine ⟨m, l1, l2, ?_, by rw [hx, he], hl1, hl2⟩
  rw [optimalEntry, hx]
  exact hm

/-! ## Claim C2 -/

set_option maxRecDepth 400000 in
/-- C2 (as stated) is false in one detail: for a lag with one or two
valid paired points the code records the actual count in `n_samples`
(here 2), not 0; the statistical fields are still voided to r = 0,
p = 1. -/
theorem C2_counterexample :
    lagEntry constP [some 1, some 2] [some 1, some 2] 0
        ∈ lagTable constP [some 1, some 2] [some 1, some 2] 10 ∧
      (validPairs [some 1, some 2] [some 1, some 2] 0).length = 2 ∧
      lagEntry constP [some 1, some 2] [some 1, some 2] 0 = ⟨0, 0, 0, 1, false, 2⟩ ∧
      (2 : ℕ) ≠ 0 := by
  with_unfolding_all decide

/-- C2 (amended): for every lag in the scan range at which fewer than 3
valid paired points remain after shifting and dropping nulls, the
correlator records the void result r = 0, p = 1, not significant, with
`n_samples` equal to the actual (sub-3) count of valid pairs; the entry
is produced as a normal table row (the embedding is total — no
exception path exists). -/
theorem C2_void_entry (pval : ℕ → ℚ → ℤ → ℚ) (a b : List (Option ℚ)) (L : ℕ) (lag : ℤ)
    (h1 : -(L : ℤ) ≤ lag) (h2 : lag ≤ (L : ℤ))
    (h3 : (validPairs a b lag).length < 3) :
    lagEntry pval a b lag = ⟨lag, 0, 0, 1, false, (validPairs a b lag).length⟩ ∧
      lagEntry pval a b lag ∈ lagTable pval a b L := by
  refine ⟨?_, lagEntry_mem_lagTable pval a b h1 h2⟩
  rw [lagEntry_eq, if_pos h3]

set_option maxRecDepth 400000 in
/-- Witness for C2: lag 0 with series of length 2 (two valid pairs). -/
theorem C2_void_entry_witness :
    (-((10 : ℕ) : ℤ) ≤ (0 : ℤ) ∧ (0 : ℤ) ≤ ((10 : ℕ) : ℤ) ∧
        (validPairs [some 1, some 2] [some 1, some 2] 0).length < 3) ∧
      (lagEntry constP [some 1, some 2] [some 1, some 2] 0
          = ⟨0, 0, 0, 1, false, (validPairs [some 1, some 2] [some 1, some 2] 0).length⟩ ∧
        lagEntry constP [some 1, some 2] [some 1, some 2] 0
          ∈ lagTable constP [some 1, some 2] [some 1, some 2] 10) :=
  ⟨⟨by decide, by decide, by with_unfolding_all decide⟩,
    C2_void_entry constP [some 1, some 2] [some 1, some 2] 10 0 (by decide) (by decide)
      (by with_unfolding_all decide)⟩

/-! ## Claim C10 -/

/-- C10: at a lag with at least 3 valid paired points where Pearson is
NaN (a constant shifted series, i.e. a vanishing denominator factor),
the code records r = 0, p = 1, not significant, keeping the sample
count; together with `C2_void_entry` and the non-degenerate branch this
makes every table entry carry finite rational r and p fields. -/
theorem C10_nan_void_entry (pval : ℕ → ℚ → ℤ → ℚ) (a b : List (Option ℚ)) (lag : ℤ)
    (h1 : 3 ≤ (validPairs a b lag).length)
    (h2 : pDen ((validPairs a b lag).map Prod.fst) = 0 ∨
      pDen ((validPairs a b lag).map Prod.snd) = 0) :
    lagEntry pval a b lag = ⟨lag, 0, 0, 1, false, (validPairs a b lag).length⟩ := by
  rw [lagEntry_eq, if_neg (not_lt.2 h1), if_pos h2]

set_option maxRecDepth 400000 in
/-- Witness for C10: a constant pair of series with 3 overlapping
points. -/
theorem C10_nan_void_entry_witness :
    (3 ≤ (validPairs [some 5, some 5, some 5] [some 5, some 5, some 5] 0).length ∧
        (pDen (((validPairs [some 5, some 5, some 5] [some 5, some 5, some 5] 0)).map Prod.fst) = 0 ∨
          pDen (((validPairs [some 5, some 5, some 5] [some 5, some 5, some 5] 0)).map Prod.snd) = 0)) ∧
      lagEntry constP [some 5, some 5, some 5] [some 5, some 5, some 5] 0
        = ⟨0, 0, 0, 1, false, (validPairs [some 5, some 5, some 5] [some 5, some 5, some 5] 0).length⟩ :=
  ⟨⟨by with_unfolding_all decide, by with_unfolding_all decide⟩,
    C10_nan_void_entry constP [some 5, some 5, some 5] [some 5, some 5, some 5] 0
      (by with_unfolding_all decide) (by with_unfolding_all decide)⟩

/-! ## Claim C7 -/

set_option maxRecDepth 400000 in
/-- C7 (as stated) is false: for a constant series A and B = A delayed
by 6 s, `pearsonr` sees constant overlaps (NaN, voided to r = 0) at
every lag, so the reported optimal entry is the first scanned lag −10
with r = 0 — neither lag ±6 nor r ≈ 1. -/
theorem C7_counterexample :
    optimalEntry constP (List.replicate 9 (some 5))
        (shiftSeries 6 (List.replicate 9 (some 5))) 10
      = some ⟨-10, 0, 0, 1, false, 0⟩ ∧
      ((-10 : ℤ) ≠ -6 ∧ (-10 : ℤ) ≠ 6 ∧ (0 : ℚ) ≠ 1) := by
  with_unfolding_all decide

/-- C7 (amended): if B is exactly A delayed by `k ≤ L` seconds, the
overlap at lag `-k` keeps at least 3 valid pairs and is not constant,
and no other lag of the produced table reaches `|r| = 1`, then the
selected optimal entry is the lag `-k` one with r exactly 1 (`rsq = 1`,
positive sign); negative lag means "A leads B" under the code's sign
convention.  (Without the non-constancy and uniqueness provisos the
original claim fails, see the counterexample.) -/
theorem C7_shifted_copy (pval : ℕ → ℚ → ℤ → ℚ) (a : List (Option ℚ)) (k L : ℕ)
    (hk : k ≤ L)
    (h3 : 3 ≤ (validPairs a (shiftSeries k a) (-(k : ℤ))).length)
    (hvar : pDen ((validPairs a (shiftSeries k a) (-(k : ℤ))).map Prod.fst) ≠ 0)
    (huniq : ∀ e ∈ lagTable pval a (shiftSeries k a) L, e.rsq = 1 → e.lag = -(k : ℤ)) :
    ∃ e, optimalEntry pval a (shiftSeries k a) L = some e ∧
      e.lag = -(k : ℤ) ∧ e.rsq = 1 ∧ e.rsign = 1 := by
  set b := shiftSeries k a with hb
  set pairs := validPairs a b (-(k : ℤ)) with hpairs
  have hfst : pairs.map Prod.fst = (a.take (a.length - k)).filterMap id := by
    rw [hpairs, hb, validPairs_shiftSeries, List.map_map]
    exact List.map_id _
  have hsnd : pairs.map Prod.snd = (a.take (a.length - k)).filterMap id := by
    rw [hpairs, hb, validPairs_shiftSeries, List.map_map]
    exact List.map_id _
  have hdy : pDen (pairs.map Prod.snd) = pDen (pairs.map Prod.fst) := by rw [hsnd, hfst]
  have hnum : pNum (pairs.map Prod.fst) (pairs.map Prod.snd) = pDen (pairs.map Prod.fst) := by
    conv_lhs => rw [hsnd, hfst]
    rw [pDen, hfst]
  have hdpos : 0 < pDen (pairs.map Prod.fst) :=
    lt_of_le_of_ne (pDen_nonneg _) (Ne.symm hvar)
  have hor : ¬ (pDen (pairs.map Prod.fst) = 0 ∨ pDen (pairs.map Prod.snd) = 0) := by
    rw [hdy]
    intro h
    exact hvar (h.elim id id)
  have hdiv : pNum (pairs.map Prod.fst) (pairs.map Prod.snd) ^ 2
      / (pDen (pairs.map Prod.fst) * pDen (pairs.map Prod.snd)) = 1 := by
    rw [hnum, hdy, pow_two]
    exact div_self (mul_ne_zero (ne_of_gt hdpos) (ne_of_gt hdpos))
  have hsgnif : (if 0 < pNum (pairs.map Prod.fst) (pairs.map Prod.snd) then (1 : ℤ)
      else if pNum (pairs.map Prod.fst) (pairs.map Prod.snd) < 0 then -1 else 0) = 1 := by
    rw [hnum, if_pos hdpos]
  have hrsq : (lagEntry pval a b (-(k : ℤ))).rsq = 1 := by
    rw [lagEntry_eq, if_neg (not_lt.2 h3), if_neg hor]
    exact hdiv
  have hsgn1 : (lagEntry pval a b (-(k : ℤ))).rsign = 1 := by
    rw [lagEntry_eq, if_neg (not_lt.2 h3), if_neg hor]
    exact hsgnif
  cases hopt : optimalEntry pval a b L with
  | none => exact absurd (pyMaxBy_eq_none _ _ hopt) (lagTable_ne_nil pval a b L)
  | some m =>
    obtain ⟨hmem, hmax⟩ := pyMaxBy_max (fun e => e.rsq) _ m hopt
    have hin : lagEntry pval a b (-(k : ℤ)) ∈ lagTable pval a b L :=
      lagEntry_mem_lagTable pval a b (by omega) (by omega)
    have hge : 1 ≤ m.rsq := by
      have := hmax _ hin
      rwa [hrsq] at this
    have hle : m.rsq ≤ 1 := by
      have h1 := lagEntry_rsq_le_one pval a b m.lag
      rwa [← mem_lagTable_eq pval a b L m hmem] at h1
    have hm1 : m.rsq = 1 := le_antisymm hle hge
    have hlag : m.lag = -(k : ℤ) := huniq m hmem hm1
    have hme : m = lagEntry pval a b (-(k : ℤ)) := by
      rw [mem_lagTable_eq pval a b L m hmem, hlag]
    exact ⟨m, rfl, hlag, hm1, by rw [hme]; exact hsgn1⟩

set_option maxRecDepth 400000 in
/-- Witness for C7: a non-constant series delayed by 1 s with lag bound
3; only lag −1 attains `|r| = 1`, and the selection reports it with
r = 1. -/
theorem C7_shifted_copy_witness :
    ((1 : ℕ) ≤ 3 ∧
        3 ≤ (validPairs [some 0, some 1, some 4, some 9, some 5]
          (shiftSeries 1 [some 0, some 1, some 4, some 9, some 5]) (-((1 : ℕ) : ℤ))).length ∧
        pDen ((validPairs [some 0, some 1, some 4, some 9, some 5]
          (shiftSeries 1 [some 0, some 1, some 4, some 9, some 5]) (-((1 : ℕ) : ℤ))).map Prod.fst) ≠ 0 ∧
        (∀ e ∈ lagTable constP [some 0, some 1, some 4, some 9, some 5]
            (shiftSeries 1 [some 0, some 1, some 4, some 9, some 5]) 3,
          e.rsq = 1 → e.lag = -((1 : ℕ) : ℤ))) ∧
      (∃ e, optimalEntry constP [some 0, some 1, some 4, some 9, some 5]
            (shiftSeries 1 [some 0, some 1, some 4, some 9, some 5]) 3 = some e ∧
          e.lag = -((1 : ℕ) : ℤ) ∧ e.rsq = 1 ∧ e.rsign = 1) :=
  ⟨⟨by decide, by with_unfolding_all decide, by with_unfolding_all decide,
      by with_unfolding_all decide⟩,
    C7_shifted_copy constP [some 0, some 1, some 4, some 9, some 5] 1 3 (by decide)
      (by with_unfolding_all decide) (by with_unfolding_all decide)
      (by with_unfolding_all decide)⟩

/-! ## Claim C3 -/

set_option maxRecDepth 400000 in
/-- C3 (as stated) is false: with the benign baseline [0, 2, 4]
(μ = 2, σ = 2, threshold 6) and a series that is 20 for the first five
seconds and 0 afterwards, the detector accepts window start 0 with high
confidence — its confirmation window `[0, 10)` overlaps the elevated
burst — although the specification's confirmation window immediately
following the detection window, `[5, 15)`, has mean 0 and fails the
threshold test. -/
theorem C3_counterexample :
    sampleMean [0, 2, 4] = 2 ∧ (2 : ℚ) ^ 2 = sampleVar [0, 2, 4] ∧
      sampleMean [0, 2, 4] + 2 * 2 = 6 ∧
      detectHost 6 [(0, 20), (1, 20), (2, 20), (3, 20), (4, 20), (5, 0), (6, 0), (7, 0),
          (8, 0), (9, 0), (10, 0), (11, 0), (12, 0), (13, 0), (14, 0)]
        = some ⟨0, Confidence.high⟩ ∧
      specHostAccept 6 [(0, 20), (1, 20), (2, 20), (3, 20), (4, 20), (5, 0), (6, 0), (7, 0),
          (8, 0), (9, 0), (10, 0), (11, 0), (12, 0), (13, 0), (14, 0)] 0 = false := by
  with_unfolding_all decide

/-- C3 (amended): with the threshold μ + 2σ computed from the benign
baseline, the detector returns timestamp `t` with confidence `high`
exactly when `t` is a sample time whose 5-unit window mean exceeds the
threshold and whose 10-unit confirmation window — starting at the same
`t`, hence containing the detection window, not following it — also has
mean above threshold, and no earlier sample time passes both tests. -/
theorem C3_two_stage_detection (benign : List ℚ) (σ thr : ℚ) (s : List (ℚ × ℚ)) (t : ℚ)
    (_hσ : 0 ≤ σ) (_hvar : σ ^ 2 = sampleVar benign)
    (_hthr : thr = sampleMean benign + 2 * σ)
    (hs : (s.map Prod.fst).Sorted (· ≤ ·)) :
    detectHost thr s = some ⟨t, Confidence.high⟩ ↔
      t ∈ s.map Prod.fst ∧ hostAccept thr s t = true ∧
        ∀ u ∈ s.map Prod.fst, u < t → hostAccept thr s u = false := by
  cases s with
  | nil => simp [detectHost]
  | cons p rest =>
    rw [detectHost]
    constructor
    · intro h
      cases hf : ((p :: rest).map Prod.fst).find? (fun u => hostAccept thr (p :: rest) u) with
      | none => rw [hf] at h; simp at h
      | some u =>
        rw [hf] at h
        have hut : u = t := by
          have := Option.some.inj h
          exact congrArg DetectResult.timestamp this
        subst hut
        obtain ⟨hacc, as, bs, hsplit, hfail⟩ := List.find?_eq_some.1 hf
        refine ⟨?_, hacc, ?_⟩
        · rw [hsplit]
          exact List.mem_append.2 (Or.inr (List.mem_cons_self _ _))
        · intro v hv hvu
          rw [hsplit] at hv
          rcases List.mem_append.1 hv with hv | hv
          · have := hfail v hv
            simpa using this
          · rcases List.mem_cons.1 hv with rfl | hv
            · exact absurd hvu (lt_irrefl _)
            · exfalso
              have hsorted := hs
              rw [hsplit] at hsorted
              have hpw := (List.pairwise_append.1 hsorted).2.1
              have hle := (List.pairwise_cons.1 hpw).1 v hv
              exact absurd hvu (not_lt.2 hle)
    · rintro ⟨hmem, hacc, hmin⟩
      cases hf : ((p :: rest).map Prod.fst).find? (fun u => hostAccept thr (p :: rest) u) with
      | none =>
        exfalso
        have := List.find?_eq_none.1 hf t hmem
        simp [hacc] at this
      | some u =>
        obtain ⟨haccu, as, bs, hsplit, hfail⟩ := List.find?_eq_some.1 hf
        have hut : u = t := by
          rcases lt_trichotomy u t with hlt | heq | hgt
          · exfalso
            have humem : u ∈ (p :: rest).map Prod.fst := by
              rw [hsplit]
              exact List.mem_append.2 (Or.inr (List.mem_cons_self _ _))
            have := hmin u humem hlt
            rw [this] at haccu
            simp at haccu
          · exact heq
          · exfalso
            rw [hsplit] at hmem
            rcases List.mem_append.1 hmem with hv | hv
            · have := hfail t hv
              simp [hacc] at this
            · rcases List.mem_cons.1 hv with rfl | hv
              · exact absurd hgt (lt_irrefl _)
              · have hsorted := hs
                rw [hsplit] at hsorted
                have hpw := (List.pairwise_append.1 hsorted).2.1
                have hle := (List.pairwise_cons.1 hpw).1 t hv
                exact absurd hgt (not_lt.2 hle)
        rw [hut]

set_option maxRecDepth 400000 in
/-- Witness for C3: baseline [0, 2, 4] (threshold 6) and a constant-20
series; the detector reports t = 0 with high confidence and the
characterisation holds. -/
theorem C3_two_stage_detection_witness :
    ((0 : ℚ) ≤ 2 ∧ (2 : ℚ) ^ 2 = sampleVar [0, 2, 4] ∧
        (6 : ℚ) = sampleMean [0, 2, 4] + 2 * 2 ∧
        (([((0 : ℚ), (20 : ℚ)), (1, 20), (2, 20)].map Prod.fst).Sorted (· ≤ ·))) ∧
      (detectHost 6 [(0, 20), (1, 20), (2, 20)] = some ⟨0, Confidence.high⟩ ↔
        (0 : ℚ) ∈ [((0 : ℚ), (20 : ℚ)), (1, 20), (2, 20)].map Prod.fst ∧
          hostAccept 6 [(0, 20), (1, 20), (2, 20)] 0 = true ∧
          ∀ u ∈ [((0 : ℚ), (20 : ℚ)), (1, 20), (2, 20)].map Prod.fst, u < 0 →
            hostAccept 6 [(0, 20), (1, 20), (2, 20)] u = false) :=
  ⟨⟨by with_unfolding_all decide, by with_unfolding_all decide,
      by with_unfolding_all decide, by with_unfolding_all decide⟩,
    C3_two_stage_detection [0, 2, 4] 2 6 [(0, 20), (1, 20), (2, 20)] 0
      (by with_unfolding_all decide) (by with_unfolding_all decide)
      (by with_unfolding_all decide) (by with_unfolding_all decide)⟩

/-! ## Claim C4 -/

/-- C4: on a nonempty series in which no window start passes the
two-stage test, the detector raises nothing and returns the series'
first timestamp tagged with confidence `low`, a value distinct from the
confident tag `high`. -/
theorem C4_fallback_first_timestamp (thr : ℚ) (p : ℚ × ℚ) (rest : List (ℚ × ℚ))
    (hnone : ∀ u ∈ (p :: rest).map Prod.fst, hostAccept thr (p :: rest) u = false) :
    detectHost thr (p :: rest) = some ⟨p.1, Confidence.low⟩ ∧
      Confidence.low ≠ Confidence.high := by
  refine ⟨?_, by decide⟩
  rw [detectHost]
  have hf : ((p :: rest).map Prod.fst).find? (fun u => hostAccept thr (p :: rest) u) = none :=
    List.find?_eq_none.2 (fun u hu => by simp [hnone u hu])
  rw [hf]

set_option maxRecDepth 400000 in
/-- Witness for C4: an all-zero series against threshold 100 falls back
to the first timestamp with low confidence. -/
theorem C4_fallback_first_timestamp_witness :
    (∀ u ∈ (((1 : ℚ), (0 : ℚ)) :: [((2 : ℚ), (0 : ℚ))]).map Prod.fst,
        hostAccept 100 (((1 : ℚ), (0 : ℚ)) :: [((2 : ℚ), (0 : ℚ))]) u = false) ∧
      (detectHost 100 (((1 : ℚ), (0 : ℚ)) :: [((2 : ℚ), (0 : ℚ))])
          = some ⟨((1 : ℚ), (0 : ℚ)).1, Confidence.low⟩ ∧
        Confidence.low ≠ Confidence.high) :=
  ⟨by with_unfolding_all decide,
    C4_fallback_first_timestamp 100 ((1 : ℚ), (0 : ℚ)) [((2 : ℚ), (0 : ℚ))]
      (by with_unfolding_all decide)⟩

/-! ## Claim C8 -/

/-- C8: a series with zero samples makes both the host and the power
detector store the explicit null outcome `none` for the layer — no
exception, and no numeric fallback result of any kind. -/
theorem C8_empty_series_none (thr : ℚ) :
    detectHost thr [] = none ∧ detectPower thr [] = none ∧
      (∀ r : DetectResult, detectHost thr [] ≠ some r) ∧
      (∀ r : DetectResult, detectPower thr [] ≠ some r) :=
  ⟨rfl, rfl, fun r h => by simp [detectHost] at h, fun r h => by simp [detectPower] at h⟩

/-! ## Claim C5 -/

/-- C5: within the configured range, cell `t` of the aligned timeline is
computed from exactly the samples whose relative time lies in the
half-open window `[t − τ, t + τ)`: it is null precisely when no sample
lies there, and otherwise it is their arithmetic mean (sum over count) —
never zero or another filled value. -/
theorem C5_window_mean_or_null (τ : ℚ) (s : List (ℚ × ℚ)) (T t : ℕ) (ht : t ≤ T) :
    (alignTimeline τ s T)[t]? = some (t, alignedCell τ s (t : ℚ)) ∧
      (∀ p : ℚ × ℚ, p ∈ windowOf τ s (t : ℚ) ↔
        p ∈ s ∧ (t : ℚ) - τ ≤ p.1 ∧ p.1 < (t : ℚ) + τ) ∧
      (alignedCell τ s (t : ℚ) = none ↔ windowOf τ s (t : ℚ) = []) ∧
      (windowOf τ s (t : ℚ) ≠ [] →
        alignedCell τ s (t : ℚ)
          = some (((windowOf τ s (t : ℚ)).map Prod.snd).sum
              / (((windowOf τ s (t : ℚ)).map Prod.snd).length : ℚ))) := by
  refine ⟨?_, ?_, ?_, ?_⟩
  · rw [alignTimeline, List.getElem?_map, List.getElem?_range (by omega)]
    rfl
  · intro p
    rw [windowOf, List.mem_filter]
    simp
  · rw [alignedCell]
    by_cases hw : (windowOf τ s (t : ℚ)).isEmpty
    · simp [hw, List.isEmpty_iff.1 hw]
    · have hne : windowOf τ s (t : ℚ) ≠ [] := by
        intro h
        rw [h] at hw
        exact hw rfl
      simp [hw, hne]
  · intro h
    have hw : (windowOf τ s (t : ℚ)).isEmpty = false := by
      cases hwe : (windowOf τ s (t : ℚ)).isEmpty
      · rfl
      · exact absurd (List.isEmpty_iff.1 hwe) h
    simp [alignedCell, hw, listMean]

set_option maxRecDepth 400000 in
/-- Witness for C5: τ = 5/2, a single sample at time 1, target second
t = 1 within range T = 2. -/
theorem C5_window_mean_or_null_witness :
    ((1 : ℕ) ≤ 2) ∧
      ((alignTimeline (5 / 2) [((1 : ℚ), (10 : ℚ))] 2)[(1 : ℕ)]?
          = some (1, alignedCell (5 / 2) [((1 : ℚ), (10 : ℚ))] ((1 : ℕ) : ℚ)) ∧
        (∀ p : ℚ × ℚ, p ∈ windowOf (5 / 2) [((1 : ℚ), (10 : ℚ))] ((1 : ℕ) : ℚ) ↔
          p ∈ [((1 : ℚ), (10 : ℚ))] ∧ ((1 : ℕ) : ℚ) - 5 / 2 ≤ p.1 ∧ p.1 < ((1 : ℕ) : ℚ) + 5 / 2) ∧
        (alignedCell (5 / 2) [((1 : ℚ), (10 : ℚ))] ((1 : ℕ) : ℚ) = none ↔
          windowOf (5 / 2) [((1 : ℚ), (10 : ℚ))] ((1 : ℕ) : ℚ) = []) ∧
        (windowOf (5 / 2) [((1 : ℚ), (10 : ℚ))] ((1 : ℕ) : ℚ) ≠ [] →
          alignedCell (5 / 2) [((1 : ℚ), (10 : ℚ))] ((1 : ℕ) : ℚ)
            = some (((windowOf (5 / 2) [((1 : ℚ), (10 : ℚ))] ((1 : ℕ) : ℚ)).map Prod.snd).sum
                / (((windowOf (5 / 2) [((1 : ℚ), (10 : ℚ))] ((1 : ℕ) : ℚ)).map Prod.snd).length : ℚ)))) :=
  ⟨by decide, C5_window_mean_or_null (5 / 2) [((1 : ℚ), (10 : ℚ))] 2 1 (by decide)⟩

/-! ## Claim C6 -/

/-- Count under a weaker predicate is bounded by count under a stronger
one. -/
theorem countP_mono_of_imp {α : Type} (p q : α → Bool) (l : List α)
    (h : ∀ a ∈ l, p a = true → q a = true) : l.countP p ≤ l.countP q := by
  induction l with
  | nil => simp
  | cons x xs ih =>
    rw [List.countP_cons, List.countP_cons]
    have hxs : ∀ a ∈ xs, p a = true → q a = true :=
      fun a ha => h a (List.mem_cons_of_mem x ha)
    have hih := ih hxs
    by_cases hp : p x = true
    · have hq := h x (List.mem_cons_self x xs) hp
      simp [hp, hq]
      omega
    · have hp' : p x = false := by simpa using hp
      cases hq : q x <;> simp [hp', hq] <;> omega

/-- Alignment windows grow with the tolerance radius. -/
theorem windowOf_mono (τ1 τ2 : ℚ) (s : List (ℚ × ℚ)) (t : ℚ) (h : τ1 ≤ τ2) :
    ∀ p ∈ windowOf τ1 s t, p ∈ windowOf τ2 s t := by
  intro p hp
  rw [windowOf, List.mem_filter] at hp ⊢
  obtain ⟨hps, hc⟩ := hp
  simp only [decide_eq_true_eq] at hc
  refine ⟨hps, ?_⟩
  simp only [decide_eq_true_eq]
  exact ⟨le_trans (by linarith) hc.1, lt_of_lt_of_le hc.2 (by linarith)⟩

/-- A cell that is non-null at tolerance `τ1` stays non-null at any
larger tolerance. -/
theorem alignedCell_isSome_mono (τ1 τ2 : ℚ) (s : List (ℚ × ℚ)) (t : ℚ) (h : τ1 ≤ τ2)
    (h1 : (alignedCell τ1 s t).isSome = true) : (alignedCell τ2 s t).isSome = true := by
  rw [alignedCell] at h1 ⊢
  by_cases hw : (windowOf τ1 s t).isEmpty
  · simp [hw] at h1
  · have hne1 : windowOf τ1 s t ≠ [] := by
      intro hc
      rw [hc] at hw
      exact hw rfl
    have hne2 : ¬ (windowOf τ2 s t).isEmpty = true := by
      intro hc
      rcases hx : windowOf τ1 s t with _ | ⟨x, xs⟩
      · exact hne1 hx
      · have hx1 : x ∈ windowOf τ1 s t := by rw [hx]; exact List.mem_cons_self _ _
        have hx2 : x ∈ windowOf τ2 s t := windowOf_mono τ1 τ2 s t h x hx1
        rw [List.isEmpty_iff.1 hc] at hx2
        simp at hx2
    simp [hne2]

/-- C6: for the same input series and range, the fraction of non-null
cells of the aligned timeline is monotone in the tolerance radius. -/
theorem C6_coverage_monotone (s : List (ℚ × ℚ)) (T : ℕ) (τ1 τ2 : ℚ) (h : τ1 ≤ τ2) :
    nonNullFrac (alignTimeline τ1 s T) ≤ nonNullFrac (alignTimeline τ2 s T) := by
  have hlen1 : (alignTimeline τ1 s T).length = T + 1 := by simp [alignTimeline]
  have hlen2 : (alignTimeline τ2 s T).length = T + 1 := by simp [alignTimeline]
  have hcnt : nonNullCount (alignTimeline τ1 s T) ≤ nonNullCount (alignTimeline τ2 s T) := by
    rw [nonNullCount, nonNullCount, alignTimeline, alignTimeline,
      List.countP_map, List.countP_map]
    refine countP_mono_of_imp _ _ _ ?_
    intro t _ hp
    exact alignedCell_isSome_mono τ1 τ2 s (t : ℚ) h hp
  rw [nonNullFrac, nonNullFrac, hlen1, hlen2]
  have hposc : (0 : ℚ) < ((T + 1 : ℕ) : ℚ) := by exact_mod_cast Nat.succ_pos T
  exact (div_le_div_iff_of_pos_right hposc).2 (by exact_mod_cast hcnt)

/-- Witness for C6: the single-sample series, T = 2, τ1 = 1 ≤ τ2 = 3. -/
theorem C6_coverage_monotone_witness :
    ((1 : ℚ) ≤ 3) ∧
      nonNullFrac (alignTimeline 1 [((1 : ℚ), (10 : ℚ))] 2)
        ≤ nonNullFrac (alignTimeline 3 [((1 : ℚ), (10 : ℚ))] 2) :=
  ⟨by norm_num, C6_coverage_monotone [((1 : ℚ), (10 : ℚ))] 2 1 3 (by norm_num)⟩

/-! ## Claim C9 -/

/-- C9: the aligner is a pure function of (tolerance, series, range) —
two runs on equal inputs yield identical aligned timelines; no hidden
randomness influences the output. -/
theorem C9_alignment_deterministic (τ1 τ2 : ℚ) (s1 s2 : List (ℚ × ℚ)) (T1 T2 : ℕ)
    (hτ : τ1 = τ2) (hs : s1 = s2) (hT : T1 = T2) :
    alignTimeline τ1 s1 T1 = alignTimeline τ2 s2 T2 := by
  subst hτ
  subst hs
  subst hT
  rfl

/-- Witness for C9: two runs on the same concrete input coincide. -/
theorem C9_alignment_deterministic_witness :
    ((5 : ℚ) / 2 = 5 / 2 ∧ [((1 : ℚ), (10 : ℚ))] = [((1 : ℚ), (10 : ℚ))] ∧ (60 : ℕ) = 60) ∧
      alignTimeline (5 / 2) [((1 : ℚ), (10 : ℚ))] 60
        = alignTimeline (5 / 2) [((1 : ℚ), (10 : ℚ))] 60 :=
  ⟨⟨rfl, rfl, rfl⟩,
    C9_alignment_deterministic (5 / 2) (5 / 2) [((1 : ℚ), (10 : ℚ))] [((1 : ℚ), (10 : ℚ))]
      60 60 rfl rfl rfl⟩
